import Mathlib

/-!
Verification of the brainfuck-compiler core (lexer, optimizer, code generator).

The definitions below are a shallow embedding of the Rust sources:
  * `Token`, `lex`                      from src/src/lex.rs (`Token`, `lex`)
  * `group_tokens`                      from src/src/lex.rs (`group_tokens`)
  * `cancel_out`                        from src/src/lex.rs (`cancel_out`)
  * `optimise_tokens`                   from src/src/lex.rs (`optimise_tokens`,
                                        `optimise_tokens_inner`)
  * `Profile`, `Profile.get_asm`, ...   from src/src/profile.rs

Rust `usize` magnitudes are modelled as `Nat`.  A `usize` subtraction `x - y`
is modelled by `checkedSub x y : Option Nat`, which is `none` when `y > x`:
in Rust that subtraction underflows (a panic in debug builds, a wraparound in
release builds), so `none` marks the computation as failed.  Fallible
computations therefore land in `Option` / `Except`:
  * `lex` returns `Except LexError _` (the Rust code panics via
    `expect("Unmapped loop end")` and `assert!(..., "Unmatched loop start")`);
  * `cancel_out` and hence `optimise_tokens` return `Option _`, where `none`
    records a usize underflow inside `cancel_out`.
-/

namespace Bfc

/-- IR element, from `enum Token` in src/src/lex.rs.  Magnitudes (`usize` in
the source) are modelled as `Nat`. -/
inductive Token where
  | PtrAdd (n : Nat)
  | PtrSub (n : Nat)
  | Add (n : Nat)
  | Sub (n : Nat)
  | LoopStart (id : Nat)
  | LoopEnd (id : Nat)
  | PutChar
  | GetChar
deriving DecidableEq

/-- The two lexer failure modes: the Rust lexer panics with
"Unmapped loop end" (a `]` with an empty stack of open loops) or
"Unmatched loop start" (open loops left at end of input). -/
inductive LexError where
  | UnmatchedLoopEnd
  | UnmatchedLoopStart
deriving DecidableEq

/-- The character loop of `lex` (src/src/lex.rs, lines 19-38): one recursive
step per character, carrying the loop-id counter and the stack of active
loop ids (head = top of stack, matching `Vec::push`/`Vec::pop`). -/
def lexAux : List Char → Nat → List Nat → Except LexError (List Token)
  | [], _, active =>
    if active.isEmpty then .ok [] else .error .UnmatchedLoopStart
  | c :: cs, counter, active =>
    if c = '>' then (lexAux cs counter active).map (fun ts => .PtrAdd 1 :: ts)
    else if c = '<' then (lexAux cs counter active).map (fun ts => .PtrSub 1 :: ts)
    else if c = '+' then (lexAux cs counter active).map (fun ts => .Add 1 :: ts)
    else if c = '-' then (lexAux cs counter active).map (fun ts => .Sub 1 :: ts)
    else if c = '[' then
      (lexAux cs (counter + 1) (counter :: active)).map (fun ts => .LoopStart counter :: ts)
    else if c = ']' then
      match active with
      | [] => .error .UnmatchedLoopEnd
      | t :: rest => (lexAux cs counter rest).map (fun ts => .LoopEnd t :: ts)
    else if c = '.' then (lexAux cs counter active).map (fun ts => .PutChar :: ts)
    else if c = ',' then (lexAux cs counter active).map (fun ts => .GetChar :: ts)
    else lexAux cs counter active

/-- Model of `lex` from src/src/lex.rs: scan the characters with a fresh counter and an
empty stack of active loops. -/
def lex (contents : String) : Except LexError (List Token) :=
  lexAux contents.toList 0 []

/-- The fusion arms of `group_tokens` (src/src/lex.rs, lines 71-74): the new
token `t` fuses with the pending accumulator `acc` exactly when both have the
same magnitude-bearing kind; the summed token is returned (`a` is the new
token's magnitude, `b` the accumulator's, as in the source). -/
def groupStep : Token → Token → Option Token
  | .PtrAdd a, .PtrAdd b => some (.PtrAdd (a + b))
  | .PtrSub a, .PtrSub b => some (.PtrSub (a + b))
  | .Add a, .Add b => some (.Add (a + b))
  | .Sub a, .Sub b => some (.Sub (a + b))
  | _, _ => none

/-- The accumulator loop of `group_tokens` (src/src/lex.rs, lines 68-86):
if the new token fuses with the accumulator the fused token becomes the new
accumulator; otherwise the accumulator is emitted and the new token becomes
the accumulator; at the end the accumulator is flushed. -/
def group_tokensAux : Option Token → List Token → List Token
  | none, [] => []
  | some a, [] => [a]
  | none, t :: ts => group_tokensAux (some t) ts
  | some a, t :: ts =>
    match groupStep t a with
    | some z => group_tokensAux (some z) ts
    | none => a :: group_tokensAux (some t) ts

/-- Model of `group_tokens` from src/src/lex.rs: the fusion pass. -/
def group_tokens (tokens : List Token) : List Token :=
  group_tokensAux none tokens

/-- Rust `usize` subtraction `a - b`: `none` when it underflows (`b > a`),
which in Rust is a panic in debug builds / wraparound in release builds. -/
def checkedSub (a b : Nat) : Option Nat :=
  if b ≤ a then some (a - b) else none

/-- Outcome of one `cancel_out` accumulator step. -/
inductive StepRes where
  | combined (acc : Option Token)
  | push
  | panic
deriving DecidableEq

/-- Wrap a possibly-underflowing magnitude into a step outcome. -/
def combRes (f : Nat → Token) : Option Nat → StepRes
  | some m => .combined (some (f m))
  | none => .panic

/-- The cancellation arms of `cancel_out` (src/src/lex.rs, lines 98-117),
for new token `t` against pending accumulator `acc` (written `cancelStep t
acc`).  Each `x - y` of the source is rendered as `checkedSub x y`.  The
`Less` branch of the `(PtrAdd a, Some(PtrSub b))` arm is the source's
`Some(Token::PtrAdd(a - b))` and its `Greater` branch is
`Some(Token::PtrSub(b - a))` — both subtractions underflow whenever taken
(for `Less` means `a < b` and `Greater` means `a > b`); likewise for the
`(Add a, Some(Sub b))` arm.  Any other pair of tokens takes the fall-through
arm that pushes the accumulator (`.push`). -/
def cancelStep : Token → Token → StepRes
  | .PtrAdd a, .PtrSub b =>
    if a < b then combRes Token.PtrAdd (checkedSub a b)
    else if a = b then .combined none
    else combRes Token.PtrSub (checkedSub b a)
  | .PtrSub a, .PtrAdd b =>
    if a < b then combRes Token.PtrAdd (checkedSub b a)
    else if a = b then .combined none
    else combRes Token.PtrSub (checkedSub a b)
  | .Add a, .Sub b =>
    if a < b then combRes Token.Add (checkedSub a b)
    else if a = b then .combined none
    else combRes Token.Sub (checkedSub b a)
  | .Sub a, .Add b =>
    if a < b then combRes Token.Add (checkedSub b a)
    else if a = b then .combined none
    else combRes Token.Sub (checkedSub a b)
  | _, _ => .push

/-- The accumulator loop of `cancel_out` (src/src/lex.rs, lines 94-129):
`none` propagates a usize underflow (Rust panic). -/
def cancel_outAux : Option Token → List Token → Option (List Token)
  | none, [] => some []
  | some a, [] => some [a]
  | none, t :: ts => cancel_outAux (some t) ts
  | some a, t :: ts =>
    match cancelStep t a with
    | .combined acc => cancel_outAux acc ts
    | .push => (cancel_outAux (some t) ts).map (fun r => a :: r)
    | .panic => none

/-- Model of `cancel_out` from src/src/lex.rs: the cancellation pass. -/
def cancel_out (tokens : List Token) : Option (List Token) :=
  cancel_outAux none tokens

/-- Model of `optimise_tokens_inner` from src/src/lex.rs: one round of fusion followed
by cancellation. -/
def optimise_tokens_inner (tokens : List Token) : Option (List Token) :=
  cancel_out (group_tokens tokens)

/-- The fixpoint loop of `optimise_tokens` (src/src/lex.rs, lines 48-54),
realised with explicit fuel; `optimise_tokens` runs it with fuel
`tokens.length + 1`, which `optimise_tokens_eq` below proves sufficient to
reproduce the Rust loop exactly (each non-final round strictly shrinks the
sequence, so the fuel is never exhausted). -/
def optimise_tokensFuel : Nat → List Token → Option (List Token)
  | 0, _ => none
  | fuel + 1, tokens =>
    match optimise_tokens_inner tokens with
    | none => none
    | some next =>
      if next = tokens then some next else optimise_tokensFuel fuel next

/-- Model of `optimise_tokens` from src/src/lex.rs: iterate
`optimise_tokens_inner` until the result equals its input. -/
def optimise_tokens (tokens : List Token) : Option (List Token) :=
  optimise_tokensFuel (tokens.length + 1) tokens

/-- The four Operations that never fuse or cancel and delimit runs:
`LoopStart`, `LoopEnd`, `PutChar` (Output), `GetChar` (Input). -/
def isBoundary : Token → Bool
  | .LoopStart _ => true
  | .LoopEnd _ => true
  | .PutChar => true
  | .GetChar => true
  | _ => false

/-- Predicate `fusable t acc`: the fusion pass would merge new token `t` into pending
token `acc` (same magnitude-bearing kind). -/
def fusable (t acc : Token) : Bool :=
  (groupStep t acc).isSome

/-- Predicate `cancellable t acc`: the cancellation pass would combine new token `t`
with pending token `acc` (inverse pair on the same axis). -/
def cancellable (t acc : Token) : Bool :=
  match cancelStep t acc with
  | .push => false
  | _ => true

/-- No two adjacent tokens of the same magnitude-bearing kind. -/
def noAdjFusable : List Token → Bool
  | x :: y :: l => !(fusable y x) && noAdjFusable (y :: l)
  | _ => true

/-- No two adjacent tokens forming an inverse pair on the same axis. -/
def noAdjCancellable : List Token → Bool
  | x :: y :: l => !(cancellable y x) && noAdjCancellable (y :: l)
  | _ => true

/-- Normal form for both rewrite passes: no adjacent fusable pair and no
adjacent inverse pair. -/
def normalForm (l : List Token) : Bool :=
  noAdjFusable l && noAdjCancellable l

/-- The four magnitude-bearing token kinds. -/
inductive MagKind where
  | ptrAdd
  | ptrSub
  | add
  | sub
deriving DecidableEq

/-- Build a magnitude-bearing token of the given kind. -/
def mkTok : MagKind → Nat → Token
  | .ptrAdd, n => .PtrAdd n
  | .ptrSub, n => .PtrSub n
  | .add, n => .Add n
  | .sub, n => .Sub n

/-- The magnitude-bearing kind of a token, if any. -/
def kindOf : Token → Option MagKind
  | .PtrAdd _ => some .ptrAdd
  | .PtrSub _ => some .ptrSub
  | .Add _ => some .add
  | .Sub _ => some .sub
  | _ => none

/-- The loop ids of the `LoopStart` tokens of a sequence, in order. -/
def startIds : List Token → List Nat
  | [] => []
  | .LoopStart i :: ts => i :: startIds ts
  | _ :: ts => startIds ts

/-- The number of `LoopStart` tokens of a sequence. -/
def numStarts : List Token → Nat
  | [] => 0
  | .LoopStart _ :: ts => numStarts ts + 1
  | _ :: ts => numStarts ts

/-- Consecutive ids: `idRange s k = [s, s+1, ..., s+k-1]`. -/
def idRange : Nat → Nat → List Nat
  | _, 0 => []
  | s, k + 1 => s :: idRange (s + 1) k

/-- Dyck check of the loop brackets of a token sequence against a stack of
currently open ids: every `LoopEnd` must close the innermost open
`LoopStart`, and no loop may stay open at the end. -/
def checkNested : List Token → List Nat → Bool
  | [], stack => stack.isEmpty
  | .LoopStart i :: ts, stack => checkNested ts (i :: stack)
  | .LoopEnd i :: ts, stack =>
    match stack with
    | j :: rest => i == j && checkNested ts rest
    | [] => false
  | _ :: ts, stack => checkNested ts stack

/-- Pure bracket-depth scan of the source characters: final nesting depth,
or `none` if some `]` occurs at depth zero. -/
def depthScan : List Char → Nat → Option Nat
  | [], d => some d
  | c :: cs, d =>
    if c = '[' then depthScan cs (d + 1)
    else if c = ']' then
      match d with
      | 0 => none
      | e + 1 => depthScan cs e
    else depthScan cs d

/-- The lexer failure predicted from a depth scan: a `]` at depth zero is
`UnmatchedLoopEnd`, a positive final depth is `UnmatchedLoopStart`, and a
zero final depth is success. -/
def classifyDepth : Option Nat → Option LexError
  | none => some .UnmatchedLoopEnd
  | some 0 => none
  | some (_ + 1) => some .UnmatchedLoopStart

/-- The error component of a lexer result. -/
def lexOutcome : Except LexError (List Token) → Option LexError
  | .ok _ => none
  | .error e => some e

/-! ### Code generation (src/src/profile.rs) -/

/-- Model of `Profile` from src/src/profile.rs: target-specific instruction templates
(each a list of lines), setup/teardown text, and toolchain parameters. -/
structure Profile where
  name : String
  setup : List String
  teardown : List String
  ptradd : List String
  ptrsub : List String
  add : List String
  sub : List String
  loopstart : List String
  loopend : List String
  putchar : List String
  getchar : List String
  nasm_args : List String
  linker : String
  linker_args : List String

/-- The template placeholder characters (the source uses the two-character
pattern rendered here as `\x7b\x7d`). -/
def placeholderOpen : Char := Char.ofNat 123

/-- Closing placeholder character. -/
def placeholderClose : Char := Char.ofNat 125

/-- Rust `str::replace` specialised to the placeholder pattern: replace every
non-overlapping occurrence, scanning left to right. -/
def replacePlaceholder (rep : List Char) : List Char → List Char
  | [] => []
  | [c] => [c]
  | c :: c2 :: cs2 =>
    if c = placeholderOpen ∧ c2 = placeholderClose then
      rep ++ replacePlaceholder rep cs2
    else
      c :: replacePlaceholder rep (c2 :: cs2)

/-- Model of the source's `Vec<&str>.join("\n")`. -/
def joinLines (xs : List String) : String :=
  String.intercalate "\n" xs

/-- Model of `.join("\n").replace(pattern, &n.to_string())` from
`Profile::get_asm`. -/
def substituteCount (template : String) (n : Nat) : String :=
  String.mk (replacePlaceholder (toString n).toList template.toList)

/-- Model of `Profile::get_setup_asm` from src/src/profile.rs. -/
def Profile.get_setup_asm (p : Profile) : String :=
  joinLines p.setup

/-- Model of `Profile::get_teardown_asm` from src/src/profile.rs. -/
def Profile.get_teardown_asm (p : Profile) : String :=
  joinLines p.teardown

/-- Model of `Profile::get_asm` from src/src/profile.rs (lines 71-82): the template
block for the token's kind with the magnitude (or loop id) substituted for
the placeholder; `PutChar`/`GetChar` templates are used verbatim. -/
def Profile.get_asm (p : Profile) (tok : Token) : String :=
  match tok with
  | .PtrAdd n => substituteCount (joinLines p.ptradd) n
  | .PtrSub n => substituteCount (joinLines p.ptrsub) n
  | .Add n => substituteCount (joinLines p.add) n
  | .Sub n => substituteCount (joinLines p.sub) n
  | .LoopStart n => substituteCount (joinLines p.loopstart) n
  | .LoopEnd n => substituteCount (joinLines p.loopend) n
  | .PutChar => joinLines p.putchar
  | .GetChar => joinLines p.getchar

/-- Modelled from the spec: the driver that assembles the generator output is
not under src/ (the `main.rs` present there hard-codes one target's
instruction text instead of consuming a `Profile`).  Following §4.3 of the
spec, it emits the profile's setup text block, then one instruction-text
block per Operation in sequence order via `Profile.get_asm`, then the
profile's teardown text block. -/
def generate (p : Profile) (ops : List Token) : List String :=
  p.get_setup_asm :: ops.map p.get_asm ++ [p.get_teardown_asm]

/-- A concrete profile for exercising the generator: setup `S`, teardown `T`,
and an `Increment` template `ADD` followed by the placeholder. -/
def testProfile : Profile where
  name := "test"
  setup := ["S"]
  teardown := ["T"]
  ptradd := []
  ptrsub := []
  add := ["ADD \x7b\x7d"]
  sub := []
  loopstart := []
  loopend := []
  putchar := []
  getchar := []
  nasm_args := []
  linker := "ld"
  linker_args := []

/-! ### Length bookkeeping for the two passes

Each pass either returns its input unchanged (accumulator included) or a
strictly shorter sequence; this is what makes the fixpoint loop of
`optimise_tokens` terminate. -/

/-- The fusion pass returns the pending accumulator followed by the input
unchanged, or something strictly shorter. -/
theorem group_tokensAux_cases (l : List Token) :
    ∀ acc : Option Token, group_tokensAux acc l = acc.toList ++ l ∨
      (group_tokensAux acc l).length < acc.toList.length + l.length := by
  induction l with
  | nil => intro acc; cases acc <;> simp [group_tokensAux]
  | cons t ts ih =>
    intro acc
    cases acc with
    | none =>
      rcases ih (some t) with h | h
      · left; simpa [group_tokensAux] using h
      · right
        simp only [group_tokensAux, Option.toList] at h ⊢
        simp only [List.length_nil, List.length_cons, List.length_append] at h ⊢
        omega
    | some a =>
      cases hs : groupStep t a with
      | some z =>
        rcases ih (some z) with h | h
        · right
          simp only [group_tokensAux, hs, h]
          simp only [Option.toList, List.length_cons, List.length_append,
            List.length_singleton]
          omega
        · right
          simp only [group_tokensAux, hs]
          simp only [Option.toList, List.length_cons, List.length_singleton] at h ⊢
          omega
      | none =>
        rcases ih (some t) with h | h
        · left
          simp only [group_tokensAux, hs, h]
          simp [Option.toList]
        · right
          simp only [group_tokensAux, hs]
          simp only [Option.toList, List.length_cons, List.length_singleton,
            List.length_append] at h ⊢
          omega

/-- The cancellation pass panics, or returns the pending accumulator followed
by the input unchanged, or returns something strictly shorter. -/
theorem cancel_outAux_cases (l : List Token) :
    ∀ acc : Option Token, cancel_outAux acc l = none ∨
      cancel_outAux acc l = some (acc.toList ++ l) ∨
      ∃ r, cancel_outAux acc l = some r ∧ r.length < acc.toList.length + l.length := by
  induction l with
  | nil => intro acc; cases acc <;> simp [cancel_outAux]
  | cons t ts ih =>
    intro acc
    cases acc with
    | none =>
      rcases ih (some t) with h | h | ⟨r, hr, hlen⟩
      · left; simpa [cancel_outAux] using h
      · right; left; simpa [cancel_outAux] using h
      · right; right
        refine ⟨r, by simpa [cancel_outAux] using hr, ?_⟩
        simp only [Option.toList, List.length_cons, List.length_singleton,
          List.length_nil] at hlen ⊢
        omega
    | some a =>
      cases hs : cancelStep t a with
      | combined acc2 =>
        rcases ih acc2 with h | h | ⟨r, hr, hlen⟩
        · left; simp only [cancel_outAux, hs]; exact h
        · right; right
          refine ⟨acc2.toList ++ ts, by simp only [cancel_outAux, hs]; exact h, ?_⟩
          cases acc2 <;>
            simp only [Option.toList, List.length_append, List.length_cons,
              List.length_singleton, List.length_nil] <;> omega
        · right; right
          refine ⟨r, by simp only [cancel_outAux, hs]; exact hr, ?_⟩
          cases acc2 <;>
            simp only [Option.toList, List.length_cons, List.length_singleton,
              List.length_nil] at hlen ⊢ <;> omega
      | push =>
        rcases ih (some t) with h | h | ⟨r, hr, hlen⟩
        · left; simp only [cancel_outAux, hs, h]; rfl
        · right; left
          simp only [cancel_outAux, hs, h]
          simp [Option.toList]
        · right; right
          refine ⟨a :: r, by simp only [cancel_outAux, hs, hr]; rfl, ?_⟩
          simp only [Option.toList, List.length_cons, List.length_singleton] at hlen ⊢
          omega
      | panic => left; simp only [cancel_outAux, hs]

/-- Size bound: a successful cancellation never lengthens the sequence. -/
theorem cancel_outAux_length_le {acc : Option Token} {l r : List Token}
    (h : cancel_outAux acc l = some r) :
    r.length ≤ acc.toList.length + l.length := by
  rcases cancel_outAux_cases l acc with h0 | h0 | ⟨r2, hr2, hlen⟩
  · rw [h0] at h; cases h
  · rw [h0] at h
    cases h
    simp
  · rw [hr2] at h
    cases h
    exact Nat.le_of_lt hlen

/-- One optimisation round panics, returns its input unchanged, or strictly
shrinks it. -/
theorem optimise_tokens_inner_cases (l : List Token) :
    optimise_tokens_inner l = none ∨ optimise_tokens_inner l = some l ∨
      ∃ r, optimise_tokens_inner l = some r ∧ r.length < l.length := by
  unfold optimise_tokens_inner cancel_out
  rcases group_tokensAux_cases l none with hg | hg
  · simp only [Option.toList, List.nil_append] at hg
    rw [show group_tokens l = l from hg]
    rcases cancel_outAux_cases l none with h | h | ⟨r, hr, hlen⟩
    · exact Or.inl h
    · right; left; simpa using h
    · right; right; exact ⟨r, hr, by simpa using hlen⟩
  · simp only [Option.toList, List.length_nil, Nat.zero_add] at hg
    rcases cancel_outAux_cases (group_tokens l) none with h | h | ⟨r, hr, hlen⟩
    · exact Or.inl h
    · right; right
      refine ⟨group_tokens l, by simpa using h, hg⟩
    · right; right
      refine ⟨r, hr, ?_⟩
      simp only [Option.toList, List.length_nil, Nat.zero_add] at hlen
      exact Nat.lt_trans hlen hg

/-- A round that changes its input strictly shrinks it. -/
theorem optimise_tokens_inner_length_lt {l r : List Token}
    (h : optimise_tokens_inner l = some r) (hne : r ≠ l) :
    r.length < l.length := by
  rcases optimise_tokens_inner_cases l with h0 | h0 | ⟨r2, hr2, hlen⟩
  · rw [h0] at h; cases h
  · rw [h0] at h; cases h; exact absurd rfl hne
  · rw [hr2] at h; cases h; exact hlen

/-- Any fuel beyond the sequence length gives the same result: the loop
reaches its fixpoint (or panics) before the fuel runs out. -/
theorem optimise_tokensFuel_mono :
    ∀ f1 f2 (l : List Token), l.length < f1 → l.length < f2 →
      optimise_tokensFuel f1 l = optimise_tokensFuel f2 l := by
  intro f1
  induction f1 with
  | zero => intro f2 l h1; exact absurd h1 (Nat.not_lt_zero _)
  | succ f ih =>
    intro f2 l h1 h2
    cases f2 with
    | zero => exact absurd h2 (Nat.not_lt_zero _)
    | succ g =>
      simp only [optimise_tokensFuel]
      cases hm : optimise_tokens_inner l with
      | none => rfl
      | some next =>
        by_cases hne : next = l
        · simp [hne]
        · have hlt : next.length < l.length := optimise_tokens_inner_length_lt hm hne
          simp only [hne, if_false]
          exact ih g next (by omega) (by omega)

/-- The defining equation of the Rust fixpoint loop (src/src/lex.rs, lines
48-54): `optimise_tokens` satisfies exactly the recurrence of the source's
`loop`, so the fuel in the definition is an implementation detail. -/
theorem optimise_tokens_eq (l : List Token) :
    optimise_tokens l =
      match optimise_tokens_inner l with
      | none => none
      | some next => if next = l then some next else optimise_tokens next := by
  unfold optimise_tokens
  conv_lhs => rw [optimise_tokensFuel]
  cases hm : optimise_tokens_inner l with
  | none => rfl
  | some next =>
    by_cases hne : next = l
    · simp [hne]
    · have hlt : next.length < l.length := optimise_tokens_inner_length_lt hm hne
      simp only [hne, if_false]
      exact optimise_tokensFuel_mono l.length (next.length + 1) next (by omega) (by omega)

/-! ### The optimiser's result is a fixpoint in normal form -/

/-- Fusion never lengthens the sequence. -/
theorem group_tokensAux_length_le (l : List Token) (acc : Option Token) :
    (group_tokensAux acc l).length ≤ acc.toList.length + l.length := by
  rcases group_tokensAux_cases l acc with h | h
  · rw [h]; simp
  · exact Nat.le_of_lt h

/-- A successful optimisation result satisfies one more round without
changing: the returned sequence is a fixpoint of
`optimise_tokens_inner`. -/
theorem optimise_tokens_fix_aux :
    ∀ n (l r : List Token), l.length ≤ n → optimise_tokens l = some r →
      optimise_tokens_inner r = some r := by
  intro n
  induction n with
  | zero =>
    intro l r hlen h
    have hl : l = [] := List.eq_nil_of_length_eq_zero (Nat.le_zero.mp hlen)
    subst hl
    rw [optimise_tokens_eq] at h
    have hm : optimise_tokens_inner [] = some [] := rfl
    rw [hm] at h
    dsimp only at h
    rw [if_pos rfl] at h
    cases h
    exact hm
  | succ n ih =>
    intro l r hlen h
    rw [optimise_tokens_eq] at h
    cases hm : optimise_tokens_inner l with
    | none => rw [hm] at h; cases h
    | some next =>
      rw [hm] at h
      dsimp only at h
      by_cases hne : next = l
      · rw [if_pos hne] at h
        cases h
        rw [hne] at hm ⊢
        exact hm
      · rw [if_neg hne] at h
        have hlt : next.length < l.length := optimise_tokens_inner_length_lt hm hne
        exact ih next r (by omega) h

/-- A fusion fixpoint has no adjacent fusable pair. -/
theorem noAdjFusable_of_group_fix :
    ∀ l : List Token, group_tokens l = l → noAdjFusable l = true := by
  intro l
  induction l with
  | nil => intro _; rfl
  | cons x l' ih =>
    intro h
    cases l' with
    | nil => rfl
    | cons y l2 =>
      cases hs : groupStep y x with
      | some z =>
        exfalso
        simp only [group_tokens, group_tokensAux, hs] at h
        have hle := group_tokensAux_length_le l2 (some z)
        rw [h] at hle
        simp only [Option.toList_some, List.length_cons, List.length_singleton,
          List.length_nil] at hle
        omega
      | none =>
        simp only [group_tokens, group_tokensAux, hs, List.cons.injEq, true_and] at h
        have htail : group_tokens (y :: l2) = y :: l2 := by
          simpa only [group_tokens, group_tokensAux] using h
        have := ih htail
        simp only [noAdjFusable, fusable, hs, Option.isSome_none, Bool.not_false,
          Bool.true_and]
        exact this

/-- A successful cancellation fixpoint has no adjacent inverse pair. -/
theorem noAdjCancellable_of_cancel_fix :
    ∀ l : List Token, cancel_out l = some l → noAdjCancellable l = true := by
  intro l
  induction l with
  | nil => intro _; rfl
  | cons x l' ih =>
    intro h
    cases l' with
    | nil => rfl
    | cons y l2 =>
      cases hs : cancelStep y x with
      | combined acc2 =>
        exfalso
        simp only [cancel_out, cancel_outAux, hs] at h
        have hle := cancel_outAux_length_le h
        cases acc2 <;>
          simp only [Option.toList, List.length_cons, List.length_singleton,
            List.length_nil] at hle <;> omega
      | push =>
        simp only [cancel_out, cancel_outAux, hs] at h
        rcases Option.map_eq_some'.mp h with ⟨r2, hr2, heq⟩
        have hr2' : r2 = y :: l2 := by
          have := heq
          simp only [List.cons.injEq] at this
          exact this.2
        subst hr2'
        have htail : cancel_out (y :: l2) = some (y :: l2) := by
          simpa only [cancel_out, cancel_outAux] using hr2
        have := ih htail
        simp only [noAdjCancellable, cancellable, hs, Bool.not_false, Bool.true_and]
        exact this
      | panic =>
        exfalso
        simp only [cancel_out, cancel_outAux, hs] at h
        exact Option.noConfusion h

/-- An optimisation-round fixpoint is also a fusion fixpoint. -/
theorem group_fix_of_inner_fix {r : List Token}
    (h : optimise_tokens_inner r = some r) : group_tokens r = r := by
  have h' : cancel_outAux none (group_tokens r) = some r := h
  rcases group_tokensAux_cases r none with hg | hg
  · simpa using hg
  · exfalso
    have hle := cancel_outAux_length_le h'
    simp only [Option.toList, List.length_nil, Nat.zero_add] at hle hg
    simp only [group_tokens] at hle
    omega

/-- The optimiser's successful results are in normal form for both passes. -/
theorem normalForm_of_optimise {l r : List Token} (h : optimise_tokens l = some r) :
    normalForm r = true := by
  have hfix := optimise_tokens_fix_aux l.length l r (Nat.le_refl _) h
  have hg : group_tokens r = r := group_fix_of_inner_fix hfix
  have hc : cancel_out r = some r := by
    have he : optimise_tokens_inner r = cancel_out (group_tokens r) := rfl
    rw [he, hg] at hfix
    exact hfix
  have h1 := noAdjFusable_of_group_fix r hg
  have h2 := noAdjCancellable_of_cancel_fix r hc
  simp [normalForm, h1, h2]

/-! ### Boundary tokens delimit both passes -/

/-- One fusion step, merge case. -/
theorem group_tokensAux_step_some {t a z : Token} (hs : groupStep t a = some z)
    (ts : List Token) :
    group_tokensAux (some a) (t :: ts) = group_tokensAux (some z) ts := by
  simp only [group_tokensAux, hs]

/-- One fusion step, push case. -/
theorem group_tokensAux_step_none {t a : Token} (hs : groupStep t a = none)
    (ts : List Token) :
    group_tokensAux (some a) (t :: ts) = a :: group_tokensAux (some t) ts := by
  simp only [group_tokensAux, hs]

/-- One cancellation step, combine case. -/
theorem cancel_outAux_step_combined {t a : Token} {acc2 : Option Token}
    (hs : cancelStep t a = .combined acc2) (ts : List Token) :
    cancel_outAux (some a) (t :: ts) = cancel_outAux acc2 ts := by
  simp only [cancel_outAux, hs]

/-- One cancellation step, push case. -/
theorem cancel_outAux_step_push {t a : Token} (hs : cancelStep t a = .push)
    (ts : List Token) :
    cancel_outAux (some a) (t :: ts) =
      (cancel_outAux (some t) ts).map (fun r => a :: r) := by
  simp only [cancel_outAux, hs]

/-- One cancellation step, panic case. -/
theorem cancel_outAux_step_panic {t a : Token} (hs : cancelStep t a = .panic)
    (ts : List Token) : cancel_outAux (some a) (t :: ts) = none := by
  simp only [cancel_outAux, hs]

/-- A boundary token pending in the fusion pass never absorbs a new token. -/
theorem groupStep_boundary_pending {b : Token} (hb : isBoundary b = true)
    (t : Token) : groupStep t b = none := by
  cases b <;> first | (cases t <;> rfl) | simp [isBoundary] at hb

/-- A new boundary token never fuses into a pending token. -/
theorem groupStep_boundary_new {b : Token} (hb : isBoundary b = true)
    (a : Token) : groupStep b a = none := by
  cases b <;> first | (cases a <;> rfl) | simp [isBoundary] at hb

/-- A boundary token pending in the cancellation pass is always pushed. -/
theorem cancelStep_boundary_pending {b : Token} (hb : isBoundary b = true)
    (t : Token) : cancelStep t b = .push := by
  cases b <;> first | (cases t <;> rfl) | simp [isBoundary] at hb

/-- A new boundary token never cancels against a pending token. -/
theorem cancelStep_boundary_new {b : Token} (hb : isBoundary b = true)
    (a : Token) : cancelStep b a = .push := by
  cases b <;> first | (cases a <;> rfl) | simp [isBoundary] at hb

/-- A pending boundary token is emitted immediately by the fusion pass. -/
theorem group_tokensAux_boundary_acc {b : Token} (hb : isBoundary b = true) :
    ∀ l, group_tokensAux (some b) l = b :: group_tokensAux none l := by
  intro l
  cases l with
  | nil => rfl
  | cons t ts =>
    simp only [group_tokensAux, groupStep_boundary_pending hb t]

/-- The fusion pass distributes over a boundary token: nothing merges across
it, and it is emitted unchanged in place. -/
theorem group_tokensAux_boundary {b : Token} (hb : isBoundary b = true) :
    ∀ (l1 l2 : List Token) (acc : Option Token),
      group_tokensAux acc (l1 ++ b :: l2) =
        group_tokensAux acc l1 ++ b :: group_tokensAux none l2 := by
  intro l1
  induction l1 with
  | nil =>
    intro l2 acc
    cases acc with
    | none =>
      rw [List.nil_append]
      show group_tokensAux (some b) l2 =
        group_tokensAux none [] ++ b :: group_tokensAux none l2
      rw [group_tokensAux_boundary_acc hb l2]
      rfl
    | some a =>
      rw [List.nil_append,
        group_tokensAux_step_none (groupStep_boundary_new hb a) l2,
        group_tokensAux_boundary_acc hb l2]
      rfl
  | cons t ts ih =>
    intro l2 acc
    cases acc with
    | none =>
      rw [List.cons_append]
      exact ih l2 (some t)
    | some a =>
      rw [List.cons_append]
      cases hs : groupStep t a with
      | some z =>
        rw [group_tokensAux_step_some hs (ts ++ b :: l2),
          group_tokensAux_step_some hs ts]
        exact ih l2 (some z)
      | none =>
        rw [group_tokensAux_step_none hs (ts ++ b :: l2),
          group_tokensAux_step_none hs ts, ih l2 (some t), List.cons_append]

/-- A pending boundary token is emitted immediately by the cancellation
pass. -/
theorem cancel_outAux_boundary_acc {b : Token} (hb : isBoundary b = true) :
    ∀ l, cancel_outAux (some b) l =
      (cancel_outAux none l).map (fun r => b :: r) := by
  intro l
  cases l with
  | nil => rfl
  | cons t ts =>
    simp only [cancel_outAux, cancelStep_boundary_pending hb t]

/-- The cancellation pass distributes over a boundary token: nothing combines
across it, it is emitted unchanged in place, and a panic on either side is a
panic of the whole. -/
theorem cancel_outAux_boundary {b : Token} (hb : isBoundary b = true) :
    ∀ (l1 l2 : List Token) (acc : Option Token),
      cancel_outAux acc (l1 ++ b :: l2) =
        (cancel_outAux acc l1).bind
          (fun r1 => (cancel_outAux none l2).map (fun r2 => r1 ++ b :: r2)) := by
  intro l1
  induction l1 with
  | nil =>
    intro l2 acc
    cases acc with
    | none =>
      rw [List.nil_append]
      show cancel_outAux (some b) l2 =
        (cancel_outAux none []).bind
          (fun r1 => (cancel_outAux none l2).map (fun r2 => r1 ++ b :: r2))
      rw [cancel_outAux_boundary_acc hb l2]
      cases cancel_outAux none l2 <;> rfl
    | some a =>
      rw [List.nil_append,
        cancel_outAux_step_push (cancelStep_boundary_new hb a) l2,
        cancel_outAux_boundary_acc hb l2]
      cases cancel_outAux none l2 <;> rfl
  | cons t ts ih =>
    intro l2 acc
    cases acc with
    | none =>
      rw [List.cons_append]
      exact ih l2 (some t)
    | some a =>
      rw [List.cons_append]
      cases hs : cancelStep t a with
      | combined acc2 =>
        rw [cancel_outAux_step_combined hs (ts ++ b :: l2),
          cancel_outAux_step_combined hs ts]
        exact ih l2 acc2
      | push =>
        rw [cancel_outAux_step_push hs (ts ++ b :: l2),
          cancel_outAux_step_push hs ts, ih l2 (some t)]
        cases cancel_outAux (some t) ts <;> cases cancel_outAux none l2 <;> rfl
      | panic =>
        rw [cancel_outAux_step_panic hs (ts ++ b :: l2),
          cancel_outAux_step_panic hs ts]
        rfl

/-! ### Fusion of a maximal run -/

/-- Fusing two tokens of the same magnitude-bearing kind sums the
magnitudes (new token's magnitude first, as in the source). -/
theorem groupStep_mkTok_same (k : MagKind) (n m : Nat) :
    groupStep (mkTok k n) (mkTok k m) = some (mkTok k (n + m)) := by
  cases k <;> rfl

/-- A token of a different kind never fuses into a pending
magnitude-bearing token. -/
theorem groupStep_mkTok_other {t : Token} {k : MagKind}
    (h : kindOf t ≠ some k) (m : Nat) : groupStep t (mkTok k m) = none := by
  cases k <;> cases t <;> first | rfl | (exfalso; exact h rfl)

/-- The fusion accumulator absorbs a whole same-kind run, summing it. -/
theorem group_tokensAux_run (k : MagKind) :
    ∀ (ns : List Nat) (m : Nat) (rest : List Token),
      group_tokensAux (some (mkTok k m)) (ns.map (mkTok k) ++ rest) =
        group_tokensAux (some (mkTok k (m + ns.sum))) rest := by
  intro ns
  induction ns with
  | nil => intro m rest; simp
  | cons n ns' ih =>
    intro m rest
    rw [List.map_cons, List.cons_append,
      group_tokensAux_step_some (groupStep_mkTok_same k n m)
        (List.map (mkTok k) ns' ++ rest),
      ih (n + m) rest]
    have harith : n + m + ns'.sum = m + (n :: ns').sum := by
      rw [List.sum_cons]; omega
    rw [harith]

/-- A pending magnitude-bearing token is flushed when the rest does not
start with its kind. -/
theorem group_tokensAux_flush {k : MagKind} {rest : List Token}
    (h : rest.head?.bind kindOf ≠ some k) (s : Nat) :
    group_tokensAux (some (mkTok k s)) rest =
      mkTok k s :: group_tokensAux none rest := by
  cases rest with
  | nil => rfl
  | cons t ts =>
    have hk : kindOf t ≠ some k := by simpa using h
    simp only [group_tokensAux, groupStep_mkTok_other hk]

/-- A maximal same-kind run at the front of the sequence is replaced by a
single token carrying the sum of the run's magnitudes. -/
theorem group_tokens_run (k : MagKind) (n : Nat) (ns : List Nat)
    (rest : List Token) (h : rest.head?.bind kindOf ≠ some k) :
    group_tokens ((n :: ns).map (mkTok k) ++ rest) =
      mkTok k ((n :: ns).sum) :: group_tokens rest := by
  rw [List.map_cons, List.cons_append]
  show group_tokensAux (some (mkTok k n)) (List.map (mkTok k) ns ++ rest) =
    mkTok k ((n :: ns).sum) :: group_tokens rest
  rw [group_tokensAux_run k ns n rest, group_tokensAux_flush h, List.sum_cons]
  rfl

/-! ### Lexer invariants -/

/-- Inversion for a mapped successful `Except`. -/
theorem except_map_ok {α β ε : Type} {f : α → β} {e : Except ε α} {r : β}
    (h : e.map f = .ok r) : ∃ a, e = .ok a ∧ r = f a := by
  cases e with
  | error err => exact Except.noConfusion h
  | ok a =>
    refine ⟨a, rfl, ?_⟩
    have h' : (Except.ok (f a) : Except ε β) = Except.ok r := h
    cases h'
    rfl

/-- Any successful lex: the `LoopStart` ids are consecutive from the current
counter in emission order, and the loop brackets are properly nested against
the current stack of open ids. -/
theorem lexAux_ok_invariants :
    ∀ (cs : List Char) (counter : Nat) (active : List Nat) (toks : List Token),
      lexAux cs counter active = .ok toks →
        startIds toks = idRange counter (numStarts toks) ∧
        checkNested toks active = true := by
  intro cs
  induction cs with
  | nil =>
    intro counter active toks h
    simp only [lexAux] at h
    by_cases ha : active.isEmpty
    · rw [if_pos ha] at h
      cases h
      exact ⟨rfl, by simpa [checkNested] using ha⟩
    · rw [if_neg ha] at h
      exact Except.noConfusion h
  | cons c cs' ih =>
    intro counter active toks h
    simp only [lexAux] at h
    by_cases h1 : c = '>'
    · rw [if_pos h1] at h
      rcases except_map_ok h with ⟨ts, hts, rfl⟩
      rcases ih counter active ts hts with ⟨hids, hnest⟩
      exact ⟨by simpa [startIds, numStarts] using hids,
        by simpa [checkNested] using hnest⟩
    rw [if_neg h1] at h
    by_cases h2 : c = '<'
    · rw [if_pos h2] at h
      rcases except_map_ok h with ⟨ts, hts, rfl⟩
      rcases ih counter active ts hts with ⟨hids, hnest⟩
      exact ⟨by simpa [startIds, numStarts] using hids,
        by simpa [checkNested] using hnest⟩
    rw [if_neg h2] at h
    by_cases h3 : c = '+'
    · rw [if_pos h3] at h
      rcases except_map_ok h with ⟨ts, hts, rfl⟩
      rcases ih counter active ts hts with ⟨hids, hnest⟩
      exact ⟨by simpa [startIds, numStarts] using hids,
        by simpa [checkNested] using hnest⟩
    rw [if_neg h3] at h
    by_cases h4 : c = '-'
    · rw [if_pos h4] at h
      rcases except_map_ok h with ⟨ts, hts, rfl⟩
      rcases ih counter active ts hts with ⟨hids, hnest⟩
      exact ⟨by simpa [startIds, numStarts] using hids,
        by simpa [checkNested] using hnest⟩
    rw [if_neg h4] at h
    by_cases h5 : c = '['
    · rw [if_pos h5] at h
      rcases except_map_ok h with ⟨ts, hts, rfl⟩
      rcases ih (counter + 1) (counter :: active) ts hts with ⟨hids, hnest⟩
      constructor
      · simp only [startIds, numStarts, idRange, hids]
      · simpa [checkNested] using hnest
    rw [if_neg h5] at h
    by_cases h6 : c = ']'
    · rw [if_pos h6] at h
      cases active with
      | nil => exact Except.noConfusion h
      | cons topId restIds =>
        rcases except_map_ok h with ⟨ts, hts, rfl⟩
        rcases ih counter restIds ts hts with ⟨hids, hnest⟩
        constructor
        · simpa [startIds, numStarts] using hids
        · simp [checkNested, hnest]
    rw [if_neg h6] at h
    by_cases h7 : c = '.'
    · rw [if_pos h7] at h
      rcases except_map_ok h with ⟨ts, hts, rfl⟩
      rcases ih counter active ts hts with ⟨hids, hnest⟩
      exact ⟨by simpa [startIds, numStarts] using hids,
        by simpa [checkNested] using hnest⟩
    rw [if_neg h7] at h
    by_cases h8 : c = ','
    · rw [if_pos h8] at h
      rcases except_map_ok h with ⟨ts, hts, rfl⟩
      rcases ih counter active ts hts with ⟨hids, hnest⟩
      exact ⟨by simpa [startIds, numStarts] using hids,
        by simpa [checkNested] using hnest⟩
    rw [if_neg h8] at h
    exact ih counter active toks h

/-- Mapping the token list of a lexer result does not change its error
component. -/
theorem lexOutcome_map (f : List Token → List Token)
    (e : Except LexError (List Token)) :
    lexOutcome (e.map f) = lexOutcome e := by
  cases e <;> rfl

/-- The lexer's error behaviour is exactly predicted by the bracket-depth
scan of the remaining characters from the current nesting depth. -/
theorem lexAux_outcome :
    ∀ (cs : List Char) (counter : Nat) (active : List Nat),
      lexOutcome (lexAux cs counter active) =
        classifyDepth (depthScan cs active.length) := by
  intro cs
  induction cs with
  | nil =>
    intro counter active
    cases active <;> rfl
  | cons c cs' ih =>
    intro counter active
    by_cases h1 : c = '>'
    · subst h1
      have hl : lexAux ('>' :: cs') counter active =
          (lexAux cs' counter active).map (fun ts => Token.PtrAdd 1 :: ts) := rfl
      have hd : depthScan ('>' :: cs') active.length =
          depthScan cs' active.length := rfl
      rw [hl, hd, lexOutcome_map]
      exact ih counter active
    by_cases h2 : c = '<'
    · subst h2
      have hl : lexAux ('<' :: cs') counter active =
          (lexAux cs' counter active).map (fun ts => Token.PtrSub 1 :: ts) := rfl
      have hd : depthScan ('<' :: cs') active.length =
          depthScan cs' active.length := rfl
      rw [hl, hd, lexOutcome_map]
      exact ih counter active
    by_cases h3 : c = '+'
    · subst h3
      have hl : lexAux ('+' :: cs') counter active =
          (lexAux cs' counter active).map (fun ts => Token.Add 1 :: ts) := rfl
      have hd : depthScan ('+' :: cs') active.length =
          depthScan cs' active.length := rfl
      rw [hl, hd, lexOutcome_map]
      exact ih counter active
    by_cases h4 : c = '-'
    · subst h4
      have hl : lexAux ('-' :: cs') counter active =
          (lexAux cs' counter active).map (fun ts => Token.Sub 1 :: ts) := rfl
      have hd : depthScan ('-' :: cs') active.length =
          depthScan cs' active.length := rfl
      rw [hl, hd, lexOutcome_map]
      exact ih counter active
    by_cases h5 : c = '['
    · subst h5
      have hl : lexAux ('[' :: cs') counter active =
          (lexAux cs' (counter + 1) (counter :: active)).map
            (fun ts => Token.LoopStart counter :: ts) := rfl
      have hd : depthScan ('[' :: cs') active.length =
          depthScan cs' (active.length + 1) := rfl
      rw [hl, hd, lexOutcome_map]
      simpa using ih (counter + 1) (counter :: active)
    by_cases h6 : c = ']'
    · subst h6
      cases active with
      | nil => rfl
      | cons topId restIds =>
        have hl : lexAux (']' :: cs') counter (topId :: restIds) =
            (lexAux cs' counter restIds).map
              (fun ts => Token.LoopEnd topId :: ts) := rfl
        have hd : depthScan (']' :: cs') (topId :: restIds).length =
            depthScan cs' restIds.length := rfl
        rw [hl, hd, lexOutcome_map]
        exact ih counter restIds
    by_cases h7 : c = '.'
    · subst h7
      have hl : lexAux ('.' :: cs') counter active =
          (lexAux cs' counter active).map (fun ts => Token.PutChar :: ts) := rfl
      have hd : depthScan ('.' :: cs') active.length =
          depthScan cs' active.length := rfl
      rw [hl, hd, lexOutcome_map]
      exact ih counter active
    by_cases h8 : c = ','
    · subst h8
      have hl : lexAux (',' :: cs') counter active =
          (lexAux cs' counter active).map (fun ts => Token.GetChar :: ts) := rfl
      have hd : depthScan (',' :: cs') active.length =
          depthScan cs' active.length := rfl
      rw [hl, hd, lexOutcome_map]
      exact ih counter active
    have hl : lexAux (c :: cs') counter active = lexAux cs' counter active := by
      simp only [lexAux, if_neg h1, if_neg h2, if_neg h3, if_neg h4, if_neg h5,
        if_neg h6, if_neg h7, if_neg h8]
    have hd : depthScan (c :: cs') active.length = depthScan cs' active.length := by
      simp only [depthScan, if_neg h5, if_neg h6]
    rw [hl, hd]
    exact ih counter active

example : lex ">" = .ok [.PtrAdd 1] := rfl
example : lex "[[-]]" =
    .ok [.LoopStart 0, .LoopStart 1, .Sub 1, .LoopEnd 1, .LoopEnd 0] := rfl
example : lex "]" = .error .UnmatchedLoopEnd := rfl
example : lex "[" = .error .UnmatchedLoopStart := rfl
example : group_tokens [.Add 1, .Add 1, .Add 1] = [.Add 3] := by decide
example : optimise_tokens [.PtrAdd 1, .PtrSub 1] = some [] := by decide
example : optimise_tokens [.PtrAdd 1, .PtrAdd 1, .PtrAdd 1, .PtrSub 1] =
    some [.PtrAdd 2] := by decide
example : optimise_tokens [.Add 1, .Sub 1, .Add 1] = some [.Add 1] := by decide
example : cancel_out [.PtrSub 2, .PtrAdd 1] = none := by decide
example : optimise_tokens [.PtrSub 1, .PtrSub 1, .PtrAdd 1] = none := by decide
example : optimise_tokens [.Add 1, .PutChar, .Add 1] =
    some [.Add 1, .PutChar, .Add 1] := by decide

/-! ### The claims -/

/-- Claim C1.  The claim states that whenever the cancellation pass meets an
inverse pair, the larger magnitude wins with the kind of the larger operand
and magnitude larger-minus-smaller.  The code violates this: in the
`(PtrAdd(a), Some(PtrSub(b)))` arm of `cancel_out` (and likewise the
`(Add(a), Some(Sub(b)))` arm) the `Less` branch returns `PtrAdd(a - b)` and
the `Greater` branch `PtrSub(b - a)` — the kinds are swapped relative to the
two (correct) symmetric arms, and both subtractions underflow `usize`
whenever taken.  This theorem evaluates the code at a failing input: lexing
`"<<>"` gives `[PtrSub 1, PtrSub 1, PtrAdd 1]`, fusion gives
`[PtrSub 2, PtrAdd 1]`, and cancellation — which the claim says yields
`[PtrSub 1]` — underflows (modelled as `none`). -/
theorem c1_cancellation_underflows :
    lex "<<>" = .ok [Token.PtrSub 1, Token.PtrSub 1, Token.PtrAdd 1] ∧
    group_tokens [Token.PtrSub 1, Token.PtrSub 1, Token.PtrAdd 1] =
      [Token.PtrSub 2, Token.PtrAdd 1] ∧
    cancel_out [Token.PtrSub 2, Token.PtrAdd 1] = none :=
  ⟨rfl, by decide, by decide⟩

/-- Claim C2.  The claim states that the optimizer is total and never fails
for any input.  The code violates this through the underflowing arms of
`cancel_out` (see C1): on the IR of the source `"<<>"` the optimizer's first
round underflows a `usize` subtraction (a panic in debug builds, a
wraparound in release builds), modelled here as `none`. -/
theorem c2_optimiser_not_total :
    lex "<<>" = .ok [Token.PtrSub 1, Token.PtrSub 1, Token.PtrAdd 1] ∧
    optimise_tokens [Token.PtrSub 1, Token.PtrSub 1, Token.PtrAdd 1] = none :=
  ⟨rfl, by decide⟩

/-- Claim C3.  The fusion pass replaces each maximal adjacent run of
same-kind magnitude-bearing Operations by a single Operation carrying the
run's summed magnitude (stated for the maximal run at the front: the rest
must not begin with the same kind; the general case follows by induction and
boundary splitting), and the claim's examples hold: optimizing the lex of
`"+++"` yields `[Add 3]` and of `"<<<"` yields `[PtrSub 3]`. -/
theorem c3_fusion_sums_runs :
    (∀ (k : MagKind) (n : Nat) (ns : List Nat) (rest : List Token),
        rest.head?.bind kindOf ≠ some k →
        group_tokens ((n :: ns).map (mkTok k) ++ rest) =
          mkTok k ((n :: ns).sum) :: group_tokens rest) ∧
    lex "+++" = .ok [Token.Add 1, Token.Add 1, Token.Add 1] ∧
    optimise_tokens [Token.Add 1, Token.Add 1, Token.Add 1] =
      some [Token.Add 3] ∧
    lex "<<<" = .ok [Token.PtrSub 1, Token.PtrSub 1, Token.PtrSub 1] ∧
    optimise_tokens [Token.PtrSub 1, Token.PtrSub 1, Token.PtrSub 1] =
      some [Token.PtrSub 3] :=
  ⟨fun k n ns rest h => group_tokens_run k n ns rest h,
    rfl, by decide, rfl, by decide⟩

/-- Witness for C3: a maximal run `Add 5, Add 2` before a boundary fuses to
`Add 7`. -/
theorem c3_fusion_sums_runs_witness :
    group_tokens ((5 :: [2]).map (mkTok MagKind.add) ++ [Token.PutChar]) =
      mkTok MagKind.add ((5 :: [2]).sum) :: group_tokens [Token.PutChar] :=
  c3_fusion_sums_runs.1 MagKind.add 5 [2] [Token.PutChar] (by decide)

/-- Claim C4.  Neither pass merges or combines across a boundary Operation
(`LoopStart`, `LoopEnd`, `PutChar`, `GetChar`): both passes distribute over
a boundary token, which is emitted unchanged in its original place; and the
claim's example holds: optimizing the lex of `"+.+"` yields
`[Add 1, PutChar, Add 1]`. -/
theorem c4_boundary_preserved :
    (∀ (b : Token) (l1 l2 : List Token), isBoundary b = true →
        group_tokens (l1 ++ b :: l2) =
          group_tokens l1 ++ b :: group_tokens l2 ∧
        cancel_out (l1 ++ b :: l2) =
          (cancel_out l1).bind
            (fun r1 => (cancel_out l2).map (fun r2 => r1 ++ b :: r2))) ∧
    lex "+.+" = .ok [Token.Add 1, Token.PutChar, Token.Add 1] ∧
    optimise_tokens [Token.Add 1, Token.PutChar, Token.Add 1] =
      some [Token.Add 1, Token.PutChar, Token.Add 1] :=
  ⟨fun b l1 l2 hb =>
    ⟨group_tokensAux_boundary hb l1 l2 none, cancel_outAux_boundary hb l1 l2 none⟩,
    rfl, by decide⟩

/-- Witness for C4: both passes distribute over the `PutChar` between two
`Add 1` tokens. -/
theorem c4_boundary_preserved_witness :
    group_tokens ([Token.Add 1] ++ Token.PutChar :: [Token.Add 1]) =
      group_tokens [Token.Add 1] ++ Token.PutChar :: group_tokens [Token.Add 1] ∧
    cancel_out ([Token.Add 1] ++ Token.PutChar :: [Token.Add 1]) =
      (cancel_out [Token.Add 1]).bind
        (fun r1 => (cancel_out [Token.Add 1]).map
          (fun r2 => r1 ++ Token.PutChar :: r2)) :=
  c4_boundary_preserved.1 Token.PutChar [Token.Add 1] [Token.Add 1] rfl

/-- Claim C5.  Every round of the optimizer (fusion then cancellation, when
it does not panic) either returns its input unchanged — the loop's stopping
condition — or a strictly shorter sequence, so the fixpoint loop of
`optimise_tokens` terminates on every input. -/
theorem c5_rounds_shrink (l next : List Token)
    (h : optimise_tokens_inner l = some next) :
    next = l ∨ next.length < l.length := by
  rcases optimise_tokens_inner_cases l with h0 | h0 | ⟨r, hr, hlen⟩
  · rw [h0] at h; exact Option.noConfusion h
  · rw [h0] at h; cases h; exact Or.inl rfl
  · rw [hr] at h; cases h; exact Or.inr hlen

/-- Witness for C5: the round on `[Add 1, Add 1]` yields the strictly
shorter `[Add 2]`. -/
theorem c5_rounds_shrink_witness :
    [Token.Add 2] = [Token.Add 1, Token.Add 1] ∨
      ([Token.Add 2] : List Token).length <
        ([Token.Add 1, Token.Add 1] : List Token).length :=
  c5_rounds_shrink [Token.Add 1, Token.Add 1] [Token.Add 2] (by decide)

/-- Claim C6.  Optimization is a fixpoint: re-optimizing an optimizer result
changes nothing.  Partiality (the underflow panic of C2) is threaded through
`Option.bind`: whenever `optimise_tokens l` succeeds with `r`,
`optimise_tokens r = some r`, and a panic is preserved. -/
theorem c6_optimise_idempotent (l : List Token) :
    (optimise_tokens l).bind optimise_tokens = optimise_tokens l := by
  cases h : optimise_tokens l with
  | none => rfl
  | some r =>
    have hfix := optimise_tokens_fix_aux l.length l r (Nat.le_refl _) h
    show optimise_tokens r = some r
    rw [optimise_tokens_eq, hfix]
    simp

/-- Claim C7.  For every successfully lexed source, the `LoopStart` ids are
exactly `0, 1, 2, ...` in emission (= source) order — so they are assigned
sequentially from 0 and never reused — and the loop brackets of the output
are properly nested with each `LoopEnd` closing the innermost open
`LoopStart` of the same id; the claim's example holds: `"[[-]]"` gets outer
id 0 and inner id 1. -/
theorem c7_loop_ids (s : String) (toks : List Token) (h : lex s = .ok toks) :
    startIds toks = idRange 0 (numStarts toks) ∧
    checkNested toks [] = true ∧
    lex "[[-]]" = .ok [Token.LoopStart 0, Token.LoopStart 1, Token.Sub 1,
      Token.LoopEnd 1, Token.LoopEnd 0] := by
  rcases lexAux_ok_invariants s.toList 0 [] toks h with ⟨h1, h2⟩
  exact ⟨h1, h2, rfl⟩

/-- Witness for C7: the invariants at the lex of `"[[-]]"`. -/
theorem c7_loop_ids_witness :
    startIds [Token.LoopStart 0, Token.LoopStart 1, Token.Sub 1,
        Token.LoopEnd 1, Token.LoopEnd 0] =
      idRange 0 (numStarts [Token.LoopStart 0, Token.LoopStart 1, Token.Sub 1,
        Token.LoopEnd 1, Token.LoopEnd 0]) ∧
    checkNested [Token.LoopStart 0, Token.LoopStart 1, Token.Sub 1,
      Token.LoopEnd 1, Token.LoopEnd 0] [] = true ∧
    lex "[[-]]" = .ok [Token.LoopStart 0, Token.LoopStart 1, Token.Sub 1,
      Token.LoopEnd 1, Token.LoopEnd 0] :=
  c7_loop_ids "[[-]]" [Token.LoopStart 0, Token.LoopStart 1, Token.Sub 1,
    Token.LoopEnd 1, Token.LoopEnd 0] rfl

/-- Claim C8.  The lexer fails with `UnmatchedLoopEnd` exactly when some `]`
occurs at bracket depth zero (aborting there), fails with
`UnmatchedLoopStart` exactly when the scan ends at positive depth, and
succeeds otherwise — its error outcome equals the classification of the pure
bracket-depth scan; the claim's examples hold: `"]"` fails with
`UnmatchedLoopEnd`, `"["` with `UnmatchedLoopStart`. -/
theorem c8_lex_error_conditions :
    (∀ s : String, lexOutcome (lex s) = classifyDepth (depthScan s.toList 0)) ∧
    lex "]" = .error LexError.UnmatchedLoopEnd ∧
    lex "[" = .error LexError.UnmatchedLoopStart :=
  ⟨fun s => by simpa using lexAux_outcome s.toList 0 [], rfl, rfl⟩

/-- Claim C9.  Code generation emits the profile's setup block first, one
template block per Operation in sequence order (with the magnitude or loop
id substituted for the placeholder by `Profile.get_asm`, and the
`PutChar`/`GetChar` templates verbatim), and the teardown block last; for a
profile with setup `S`, teardown `T` and `Increment` template
`ADD `-placeholder, the IR `[Add 5]` generates `[S, ADD 5, T]`. -/
theorem c9_generator_order :
    (∀ (p : Profile) (ops : List Token),
        generate p ops =
          p.get_setup_asm :: ops.map p.get_asm ++ [p.get_teardown_asm]) ∧
    generate testProfile [Token.Add 5] = ["S", "ADD 5", "T"] :=
  ⟨fun _ _ => rfl, by decide⟩

/-- Claim C10.  Every sequence the optimizer returns is in normal form for
both rewrite passes: no two adjacent Operations of the same magnitude-bearing
kind and no two adjacent Operations forming an inverse pair on the same
axis. -/
theorem c10_result_normal_form (l r : List Token)
    (h : optimise_tokens l = some r) : normalForm r = true :=
  normalForm_of_optimise h

/-- Witness for C10: optimizing `[Add 1, Add 1]` returns `[Add 2]`, which is
in normal form. -/
theorem c10_result_normal_form_witness : normalForm [Token.Add 2] = true :=
  c10_result_normal_form [Token.Add 1, Token.Add 1] [Token.Add 2] (by decide)

end Bfc
